import Mathlib

/-!
# Verification of the `impaired` pairwise-comparison core

Shallow embedding of `src/impaired/src/lib.rs`. Items (`Item<T>` with
`T : Eq + Hash + Ord`) are modelled as natural numbers: the core never
inspects the wrapped value beyond equality, ordering and hashing, all of
which `Nat` provides.

Rust's `HashSet`/`HashMap` (with `RandomState`) have unspecified, per-instance
iteration order. They are modelled as (association) lists whose order stands
for one realizable iteration order; properties quantified over all states
satisfying the structural invariant `WF` therefore cover every possible order,
and concrete states used in counterexamples represent orders that the real
maps can produce.

Panics (`expect`) are modelled as `Except.error ()`; `Option` return values
map to `Option`.
-/

/-- `struct Comparison` (lib.rs:72-82): a pair of items with fields `left`
and `right`. Equality of the Rust type is the order-insensitive `ceqb`. -/
structure Comparison where
  left : Nat
  right : Nat
deriving DecidableEq

/-- `Comparison::new` (lib.rs:108-110): stores the operands as given. -/
def Comparison.new (left right : Nat) : Comparison := ⟨left, right⟩

/-- `impl PartialEq for Comparison` (lib.rs:95-100): equal iff equal in the
given order or in swapped order. -/
def ceqb (c d : Comparison) : Bool :=
  (c.left == d.left && c.right == d.right) || (c.left == d.right && c.right == d.left)

/-- `impl Hash for Comparison` (lib.rs:113-118): feeds `min(left,right)` then
`max(left,right)` to the hasher; two comparisons feeding identical data hash
identically, so the fed data models the hash. -/
def chash (c : Comparison) : Nat × Nat :=
  (min c.left c.right, max c.left c.right)

/-- `Comparison::other` (lib.rs:120-128): `if self.left == item { self.right }
else { self.left }`. -/
def Comparison.other (c : Comparison) (item : Nat) : Nat :=
  if c.left = item then c.right else c.left

/-- `HashSet::insert` into the comparison set: a no-op when an element equal
(under the order-insensitive equality) is already present. -/
def insertC (acc : List Comparison) (c : Comparison) : List Comparison :=
  if acc.any (fun d => ceqb d c) then acc else acc ++ [c]

/-- Inner loop of `Comparisons::new` (lib.rs:194-198): pair the popped item
with every item still in the working list. -/
def addPairs (x : Nat) (others : List Nat) (acc : List Comparison) : List Comparison :=
  others.foldl (fun a o => insertC a (Comparison.new x o)) acc

/-- Outer loop of `Comparisons::new` (lib.rs:194-198), acting on the reversed
working list: `Vec::pop` removes the last element, so popping the vector
front-to-back equals walking its reversal head-to-tail; the remaining vector
(iterated front-to-back by `for other in &it`) is `rest.reverse`. -/
def cnGo : List Nat → List Comparison → List Comparison
  | [], acc => acc
  | x :: rest, acc => cnGo rest (addPairs x rest.reverse acc)

/-- `Comparisons::new` (lib.rs:191-201). -/
def comparisonsNew (items : List Nat) : List Comparison :=
  cnGo items.reverse []

/-- The pairs formed from `x` against each element of `others`, without the
(in the duplicate-free case inert) `HashSet` dedup check. -/
def pairsOf (x : Nat) (others : List Nat) : List Comparison :=
  others.map (fun o => Comparison.new x o)

/-- Insert-free unfolding of `cnGo` used to reason about `comparisonsNew`. -/
def allPairsAux : List Nat → List Comparison
  | [] => []
  | x :: rest => pairsOf x rest.reverse ++ allPairsAux rest

/-- `struct ComparisonResult` (lib.rs:227-231). -/
structure CompResult where
  comparison : Comparison
  winner : Nat
  loser : Nat
deriving DecidableEq

/-- State of `RetainItemIterator` (lib.rs:268-272): `comparisons_by_item`
(a `HashMap<Item, HashSet<Comparison>>`, modelled as an association list in
iteration order), plus the two shared `Rc<RefCell<Option<_>>>` slots. -/
structure RIIState where
  comparisonsByItem : List (Nat × List Comparison)
  previousComparison : Option Comparison
  previousComparisonResult : Option CompResult
deriving DecidableEq

/-- `HashMap::get` on the bucket map. -/
def lookupB : List (Nat × List Comparison) → Nat → Option (List Comparison)
  | [], _ => none
  | (k, b) :: rest, i => if k = i then some b else lookupB rest i

/-- `HashMap::get_mut` followed by an in-place update of the bucket; `none`
models the key being absent (where the source `expect`s). -/
def updateB : List (Nat × List Comparison) → Nat → (List Comparison → List Comparison) →
    Option (List (Nat × List Comparison))
  | [], _, _ => none
  | (k, b) :: rest, i, f =>
    if k = i then some ((k, f b) :: rest)
    else (updateB rest i f).map (fun r => (k, b) :: r)

/-- `HashSet::remove(&comparison)` on a bucket: removes the element equal to
`c` under the order-insensitive comparison equality. -/
def removeC (c : Comparison) (b : List Comparison) : List Comparison :=
  b.eraseP (ceqb c)

/-- `HashSet::insert` during `RetainItemIterator::new`. -/
def bucketAdd (b : List Comparison) (c : Comparison) : List Comparison :=
  if b.any (ceqb c) then b else b ++ [c]

/-- `HashMap::entry(..).and_modify(insert).or_insert_with(singleton)`
(lib.rs:279-298). -/
def mapInsertWith (bs : List (Nat × List Comparison)) (i : Nat) (c : Comparison) :
    List (Nat × List Comparison) :=
  match updateB bs i (fun b => bucketAdd b c) with
  | some r => r
  | none => bs ++ [(i, [c])]

/-- `RetainItemIterator::new` (lib.rs:275-306): index every comparison under
both of its items; both result slots start out empty. -/
def riiNew (cs : List Comparison) : RIIState :=
  { comparisonsByItem :=
      cs.foldl (fun bs c => mapInsertWith (mapInsertWith bs c.left c) c.right c) []
  , previousComparison := none
  , previousComparisonResult := none }

/-- Anchor selection in `RetainItemIterator::next` (lib.rs:395-417): use the
previous result's (winner, loser) when present, else the previous
comparison's (left, right), else seed from the first bucket; an empty bucket
map panics (`expect("at least one item has to exist")`), an empty first
bucket returns `None`. -/
def anchorOf (s : RIIState) : Except Unit (Option (Nat × Nat)) :=
  match s.previousComparisonResult with
  | some r => .ok (some (r.winner, r.loser))
  | none =>
    match s.previousComparison with
    | some c => .ok (some (c.left, c.right))
    | none =>
      match s.comparisonsByItem with
      | [] => .error ()
      | (_, b) :: _ =>
        match b with
        | [] => .ok none
        | c :: _ => .ok (some (c.left, c.right))

/-- Removal of the selected comparison from both member buckets
(lib.rs:436-443); `none` models the `expect("the referenced item has to
exist")` panics. -/
def removePair (bs : List (Nat × List Comparison)) (c : Comparison) :
    Option (List (Nat × List Comparison)) :=
  match updateB bs c.left (removeC c) with
  | none => none
  | some bs1 => updateB bs1 c.right (removeC c)

/-- Candidate choice in `RetainItemIterator::next` (lib.rs:434-435): the
`(Some(comparison), _) | (None, Some(comparison))` pattern — one pending
comparison of the winner when available, else one of the loser. -/
def candidateOf (bw bl : List Comparison) : Option Comparison :=
  match bw.head? with
  | some c => some c
  | none => bl.head?

/-- Emission of the chosen comparison (lib.rs:435-453): remove it from both
members' pending sets (panicking when a member is not a key) and record it as
the previous comparison; the previous result slot is left as is. -/
def emitChosen (s : RIIState) (c : Comparison) : Except Unit (Option (Comparison × RIIState)) :=
  match removePair s.comparisonsByItem c with
  | none => .error ()
  | some bs2 =>
    .ok (some (c, { s with comparisonsByItem := bs2, previousComparison := some c }))

/-- Candidate selection from the two looked-up buckets followed by emission;
an empty candidate means both anchors are exhausted and `next` returns
`None` (lib.rs:454). -/
def emitFrom2 (s : RIIState) (bw bl : List Comparison) :
    Except Unit (Option (Comparison × RIIState)) :=
  match candidateOf bw bl with
  | none => .ok none
  | some c => emitChosen s c

/-- Candidate lookup and emission in `RetainItemIterator::next`
(lib.rs:419-455): the winner-side and loser-side `get_mut(..).expect(..)`
panics are `error`. -/
def emitFrom (s : RIIState) (w l : Nat) : Except Unit (Option (Comparison × RIIState)) :=
  match lookupB s.comparisonsByItem w with
  | none => .error ()
  | some bw =>
    match lookupB s.comparisonsByItem l with
    | none => .error ()
    | some bl => emitFrom2 s bw bl

/-- `RetainItemIterator::next` (lib.rs:394-457). -/
def riiNext (s : RIIState) : Except Unit (Option (Comparison × RIIState)) :=
  match anchorOf s with
  | .error _ => .error ()
  | .ok none => .ok none
  | .ok (some (w, l)) => emitFrom s w l

/-- `RetainItemIterator::winner` (lib.rs:350-361): records a result only when
a previous comparison exists, with the loser computed by `other`. -/
def riiWinner (s : RIIState) (w : Nat) : RIIState :=
  match s.previousComparison with
  | none => s
  | some pc =>
    { s with previousComparisonResult := some ⟨pc, w, pc.other w⟩ }

/-- `ComparisonResultTracker::winner` (lib.rs:379-388): always records a
result for the captured comparison into the shared slot. -/
def trackerWinner (c : Comparison) (s : RIIState) (w : Nat) : RIIState :=
  { s with previousComparisonResult := some ⟨c, w, c.other w⟩ }

/-- One caller interaction with the iterator: a `next()` call or a winner
report via `RetainItemIterator::winner`. -/
inductive SeqEvent
  | pull
  | rep (w : Nat)
deriving DecidableEq

/-- Drive the iterator through a list of events, collecting the emitted
comparisons; a panic aborts the run. -/
def runEv : RIIState → List SeqEvent → List Comparison × RIIState
  | s, [] => ([], s)
  | s, SeqEvent.pull :: rest =>
    match riiNext s with
    | .ok (some (c, t)) =>
      let r := runEv t rest
      (c :: r.1, r.2)
    | .ok none => runEv s rest
    | .error _ => ([], s)
  | s, SeqEvent.rep w :: rest => runEv (riiWinner s w) rest

/-- Whether some bucket still holds a comparison equal to `c`. -/
def memB (s : RIIState) (c : Comparison) : Bool :=
  s.comparisonsByItem.any (fun e => e.2.any (fun d => ceqb c d))

/-- Keys of the bucket map. -/
def keysOf (bs : List (Nat × List Comparison)) : List Nat := bs.map Prod.fst

/-- Structural invariant of `RetainItemIterator`'s bucket map, established by
`RetainItemIterator::new` and preserved by `next`: keys are distinct (HashMap
keys), no bucket holds two equal comparisons (HashSet), every bucket entry
contains its key item, and both items of every stored comparison are keys. -/
def WF (s : RIIState) : Prop :=
  (keysOf s.comparisonsByItem).Nodup ∧
  ∀ e ∈ s.comparisonsByItem,
    e.2.Pairwise (fun a b => ceqb a b = false) ∧
    ∀ c ∈ e.2,
      (c.left = e.1 ∨ c.right = e.1) ∧
      c.left ∈ keysOf s.comparisonsByItem ∧ c.right ∈ keysOf s.comparisonsByItem

instance (s : RIIState) : Decidable (WF s) := by
  unfold WF keysOf
  infer_instance

/-- Whether `c` is present in the bucket of key `i`. -/
def bucketHas (s : RIIState) (i : Nat) (c : Comparison) : Bool :=
  match lookupB s.comparisonsByItem i with
  | some b => b.any (ceqb c)
  | none => false

/-- `s.comparisonsByItem` is exactly the map `RetainItemIterator::new` builds
from the comparison set `cs`, for some `HashMap`/`HashSet` iteration order:
keys are distinct, every comparison of `cs` is present in both of its items'
buckets, every bucket entry is a comparison of `cs` containing the key, no
bucket is empty or holds duplicates, and the result slots are empty. -/
def bucketsMatch (s : RIIState) (cs : List Comparison) : Bool :=
  decide ((keysOf s.comparisonsByItem).Nodup) &&
  cs.all (fun c => bucketHas s c.left c && bucketHas s c.right c) &&
  s.comparisonsByItem.all (fun e =>
    !e.2.isEmpty &&
    decide (e.2.Pairwise (fun a b => ceqb a b = false)) &&
    e.2.all (fun d => cs.any (ceqb d) && decide (d.left = e.1 ∨ d.right = e.1))) &&
  decide (s.previousComparison = none) &&
  decide (s.previousComparisonResult = none)

/-- `Scores`' underlying `HashMap<&Item, usize>` as an association list. -/
def sLookup : List (Nat × Nat) → Nat → Option Nat
  | [], _ => none
  | (k, v) :: rest, i => if k = i then some v else sLookup rest i

/-- `entry(winner).and_modify(|c| *c += 1).or_insert(1)` (lib.rs:545-548). -/
def sBump : List (Nat × Nat) → Nat → List (Nat × Nat)
  | [], w => [(w, 1)]
  | (k, v) :: rest, w => if k = w then (k, v + 1) :: rest else (k, v) :: sBump rest w

/-- `entry(loser).or_insert(0)` (lib.rs:549). -/
def sEnsure : List (Nat × Nat) → Nat → List (Nat × Nat)
  | [], l => [(l, 0)]
  | (k, v) :: rest, l => if k = l then (k, v) :: rest else (k, v) :: sEnsure rest l

/-- `Scores::track` (lib.rs:544-550). -/
def track (s : List (Nat × Nat)) (winner loser : Nat) : List (Nat × Nat) :=
  sEnsure (sBump s winner) loser

/-- `k` calls of `Scores::track` with the same winner/loser pair, starting
from `Scores::new` (the empty map). -/
def trackN : Nat → Nat → Nat → List (Nat × Nat)
  | 0, _, _ => []
  | k + 1, w, l => track (trackN k w l) w l

/-- The iterator state `RetainItemIterator::new` produces for the exhaustive
pair set over items 1,2,3,4, under one realizable `HashMap`/`HashSet`
iteration order (Rust's `RandomState` makes any order possible). -/
def s0C1 : RIIState :=
  { comparisonsByItem :=
      [ (2, [⟨2, 1⟩, ⟨3, 2⟩, ⟨4, 2⟩])
      , (1, [⟨2, 1⟩, ⟨3, 1⟩, ⟨4, 1⟩])
      , (3, [⟨3, 2⟩, ⟨4, 3⟩, ⟨3, 1⟩])
      , (4, [⟨4, 3⟩, ⟨4, 1⟩, ⟨4, 2⟩]) ]
  , previousComparison := none
  , previousComparisonResult := none }

/-- A complete driving of the iterator starting from `s0C1`, reporting a
member of the emitted pair as winner after every successful pull: pulls
emit (2,1), (3,2), (4,3), (4,1), (3,1) with winners 2, 3, 4, 1, 1. -/
def evsC1 : List SeqEvent :=
  [ SeqEvent.pull, SeqEvent.rep 2, SeqEvent.pull, SeqEvent.rep 3, SeqEvent.pull
  , SeqEvent.rep 4, SeqEvent.pull, SeqEvent.rep 1, SeqEvent.pull, SeqEvent.rep 1
  , SeqEvent.pull ]

/-- The iterator state for the exhaustive pair set over items 1,2,3,4 built
by `riiNew` itself (insertion order as one realizable iteration order). -/
def s0C4 : RIIState := riiNew (comparisonsNew [1, 2, 3, 4])

/-- A mid-session iterator state: pair (2,1) was emitted and item 1 reported
as its winner; item 1 still has the pending pair (3,1), item 2 is
exhausted. -/
def sW2 : RIIState :=
  { comparisonsByItem := [(1, [⟨3, 1⟩]), (2, []), (3, [⟨3, 1⟩])]
  , previousComparison := some ⟨2, 1⟩
  , previousComparisonResult := some ⟨⟨2, 1⟩, 1, 2⟩ }

/-- The state right after the only pair of a two-item session has been
emitted and no winner has been reported yet: exactly
`riiNext (riiNew (comparisonsNew [1, 2]))`'s successor state. -/
def s8 : RIIState :=
  { comparisonsByItem := [(2, []), (1, [])]
  , previousComparison := some ⟨2, 1⟩
  , previousComparisonResult := none }

/-! ## Basic properties of the order-insensitive comparison equality -/

theorem ceqb_iff {c d : Comparison} :
    ceqb c d = true ↔
      ((c.left = d.left ∧ c.right = d.right) ∨ (c.left = d.right ∧ c.right = d.left)) := by
  simp [ceqb]

theorem ceqb_refl (c : Comparison) : ceqb c c = true := by
  simp [ceqb]

theorem ceqb_symm {c d : Comparison} (h : ceqb c d = true) : ceqb d c = true := by
  rw [ceqb_iff] at h ⊢
  tauto

theorem ceqb_trans {c d e : Comparison} (h1 : ceqb c d = true) (h2 : ceqb d e = true) :
    ceqb c e = true := by
  rw [ceqb_iff] at h1 h2 ⊢
  omega

theorem ceqb_members {c d : Comparison} (h : ceqb c d = true) :
    (d.left = c.left ∨ d.left = c.right) ∧ (d.right = c.left ∨ d.right = c.right) := by
  rw [ceqb_iff] at h
  tauto

/-! ## Score tracking (`Scores::track`) -/

theorem sLookup_sBump_self (s : List (Nat × Nat)) (w : Nat) :
    sLookup (sBump s w) w = some ((sLookup s w).getD 0 + 1) := by
  induction s with
  | nil => simp [sBump, sLookup]
  | cons e rest ih =>
    obtain ⟨k, v⟩ := e
    by_cases hk : k = w <;> simp [sBump, sLookup, hk, ih]

theorem sLookup_sBump_ne (s : List (Nat × Nat)) (w j : Nat) (h : j ≠ w) :
    sLookup (sBump s w) j = sLookup s j := by
  induction s with
  | nil => simp [sBump, sLookup, Ne.symm h]
  | cons e rest ih =>
    obtain ⟨k, v⟩ := e
    by_cases hk : k = w
    · subst hk
      simp [sBump, sLookup, Ne.symm h]
    · simp [sBump, sLookup, hk, ih]

theorem sLookup_sEnsure_self (s : List (Nat × Nat)) (l : Nat) :
    sLookup (sEnsure s l) l = some ((sLookup s l).getD 0) := by
  induction s with
  | nil => simp [sEnsure, sLookup]
  | cons e rest ih =>
    obtain ⟨k, v⟩ := e
    by_cases hk : k = l <;> simp [sEnsure, sLookup, hk, ih]

theorem sLookup_sEnsure_ne (s : List (Nat × Nat)) (l j : Nat) (h : j ≠ l) :
    sLookup (sEnsure s l) j = sLookup s j := by
  induction s with
  | nil => simp [sEnsure, sLookup, Ne.symm h]
  | cons e rest ih =>
    obtain ⟨k, v⟩ := e
    by_cases hk : k = l
    · subst hk
      simp [sEnsure, sLookup, Ne.symm h]
    · simp [sEnsure, sLookup, hk, ih]

theorem track_winner_score (s : List (Nat × Nat)) (w l : Nat) (h : w ≠ l) :
    sLookup (track s w l) w = some ((sLookup s w).getD 0 + 1) := by
  unfold track
  rw [sLookup_sEnsure_ne _ _ _ h, sLookup_sBump_self]

theorem track_loser_score (s : List (Nat × Nat)) (w l : Nat) (h : w ≠ l) :
    sLookup (track s w l) l = some ((sLookup s l).getD 0) := by
  unfold track
  rw [sLookup_sEnsure_self, sLookup_sBump_ne _ _ _ (fun hh => h hh.symm)]

/-- C9: `Scores::track` increments the winner's count by one (creating the
entry at 1 if absent) and ensures the loser has an entry (creating it at 0 if
absent, never modifying an existing count); `k` repetitions of
`track w l` from a fresh score map yield score `w = k` and score `l = 0`. -/
theorem scores_track_correct (w l : Nat) (hne : w ≠ l) :
    (∀ s, sLookup (track s w l) w = some ((sLookup s w).getD 0 + 1) ∧
          sLookup (track s w l) l = some ((sLookup s l).getD 0)) ∧
    (∀ k, 1 ≤ k → sLookup (trackN k w l) w = some k ∧ sLookup (trackN k w l) l = some 0) := by
  constructor
  · intro s
    exact ⟨track_winner_score s w l hne, track_loser_score s w l hne⟩
  · intro k hk
    induction k with
    | zero => omega
    | succ n ih =>
      cases n with
      | zero =>
        constructor
        · rw [show trackN 1 w l = track [] w l from rfl, track_winner_score _ _ _ hne]
          rfl
        · rw [show trackN 1 w l = track [] w l from rfl, track_loser_score _ _ _ hne]
          rfl
      | succ m =>
        obtain ⟨ihw, ihl⟩ := ih (by omega)
        constructor
        · rw [show trackN (m + 2) w l = track (trackN (m + 1) w l) w l from rfl,
            track_winner_score _ _ _ hne, ihw]
          rfl
        · rw [show trackN (m + 2) w l = track (trackN (m + 1) w l) w l from rfl,
            track_loser_score _ _ _ hne, ihl]
          rfl

theorem scores_track_correct_witness :
    sLookup (trackN 3 5 7) 5 = some 3 ∧ sLookup (trackN 3 5 7) 7 = some 0 :=
  (scores_track_correct 5 7 (by decide)).2 3 (by decide)

/-! ## Pair symmetry (claim C7) -/

/-- C7: for distinct items `a`, `b`, `Comparison::new(a, b)` equals
`Comparison::new(b, a)` under the `PartialEq` implementation, and both feed
identical data (min then max) to the hasher, hence hash identically. -/
theorem comparison_eq_hash_symm (a b : Nat) (h : a ≠ b) :
    ceqb (Comparison.new a b) (Comparison.new b a) = true ∧
    chash (Comparison.new a b) = chash (Comparison.new b a) := by
  constructor
  · simp [ceqb, Comparison.new]
  · simp [chash, Comparison.new, Prod.ext_iff, Nat.min_comm, Nat.max_comm]

theorem comparison_eq_hash_symm_witness :
    ceqb (Comparison.new 1 2) (Comparison.new 2 1) = true ∧
    chash (Comparison.new 1 2) = chash (Comparison.new 2 1) :=
  comparison_eq_hash_symm 1 2 (by decide)

/-! ## Empty input (claim C5) -/

/-- C5 (code bug): for an empty item collection — and likewise a single-item
collection — the pair set is empty, but the first `next()` call *panics*
(`expect("at least one item has to exist")`, modelled as `error`) instead of
returning "no pair" as the spec requires. -/
theorem empty_input_next_panics :
    comparisonsNew ([] : List Nat) = [] ∧
    riiNext (riiNew (comparisonsNew ([] : List Nat))) = .error () ∧
    comparisonsNew [1] = [] ∧
    riiNext (riiNew (comparisonsNew [1])) = .error () :=
  ⟨rfl, rfl, rfl, rfl⟩

/-! ## Invalid winner reporting (claim C8) -/

/-- C8 counterexample: after the pair (2,1) has been emitted (state `s8`,
reached from `riiNew (comparisonsNew [1, 2])` by one pull), reporting the
item 99 — which belongs to neither side of the pair — through either
reporting API does *not* signal an invalid-argument condition: both silently
record a result, with 99 as winner and the pair's left item 2 as loser. -/
theorem report_winner_silent_counterexample :
    riiNext (riiNew (comparisonsNew [1, 2])) = .ok (some (⟨2, 1⟩, s8)) ∧
    ((99 : Nat) ≠ 2 ∧ (99 : Nat) ≠ 1) ∧
    (trackerWinner ⟨2, 1⟩ s8 99).previousComparisonResult = some ⟨⟨2, 1⟩, 99, 2⟩ ∧
    (riiWinner s8 99).previousComparisonResult = some ⟨⟨2, 1⟩, 99, 2⟩ :=
  ⟨rfl, ⟨by decide, by decide⟩, rfl, rfl⟩

/-- C8 amended: reporting a winner that is not one of the two items of the
most recently emitted pair does not signal an invalid-argument condition;
both reporting APIs silently record the given item as winner with the pair's
`left` item as loser. -/
theorem report_winner_silent_recording (c : Comparison) (s : RIIState) (w : Nat)
    (h1 : w ≠ c.left) (h2 : w ≠ c.right) :
    trackerWinner c s w = { s with previousComparisonResult := some ⟨c, w, c.left⟩ } ∧
    (s.previousComparison = some c →
      riiWinner s w = { s with previousComparisonResult := some ⟨c, w, c.left⟩ }) := by
  have hother : c.other w = c.left := by
    unfold Comparison.other
    rw [if_neg (Ne.symm h1)]
  constructor
  · unfold trackerWinner
    rw [hother]
  · intro hp
    simp [riiWinner, hp, hother]

theorem report_winner_silent_recording_witness :
    trackerWinner ⟨2, 1⟩ s8 99 =
      { s8 with previousComparisonResult := some ⟨⟨2, 1⟩, 99, 2⟩ } ∧
    (s8.previousComparison = some ⟨2, 1⟩ →
      riiWinner s8 99 = { s8 with previousComparisonResult := some ⟨⟨2, 1⟩, 99, 2⟩ }) :=
  report_winner_silent_recording ⟨2, 1⟩ s8 99 (by decide) (by decide)

/-! ## Early termination with unvisited pairs (claim C1) -/

/-- C1 (code bug): over the exhaustive pair set of the four distinct items
1,2,3,4 (6 pairs), the run `evsC1` — which reports a member of the emitted
pair as winner after every pull — receives only 5 pairs before `next()`
returns "no pair", while the pair (4,2) was never emitted and is still
pending. The state `s0C1` holds exactly the pairs of
`comparisonsNew [1, 2, 3, 4]`, indexed as `RetainItemIterator::new` builds
the map, under one realizable hash-iteration order. -/
theorem retain_iterator_early_termination :
    bucketsMatch s0C1 (comparisonsNew [1, 2, 3, 4]) = true ∧
    (comparisonsNew [1, 2, 3, 4]).length = 6 ∧
    (runEv s0C1 evsC1).1 = [⟨2, 1⟩, ⟨3, 2⟩, ⟨4, 3⟩, ⟨4, 1⟩, ⟨3, 1⟩] ∧
    (runEv s0C1 evsC1).1.length = 5 ∧
    riiNext (runEv s0C1 evsC1).2 = .ok none ∧
    memB (runEv s0C1 evsC1).2 ⟨4, 2⟩ = true :=
  ⟨rfl, rfl, rfl, rfl, rfl, rfl⟩

/-! ## Stale previous-result anchoring (claim C4) -/

/-- C4 (code bug): `next()` never clears `previous_comparison_result`, so a
winner reported once keeps acting as the anchor of every later pull. From
`s0C4 = riiNew (comparisonsNew [1, 2, 3, 4])`: the first pull emits (4,1)
and item 1 is reported as winner; the second pull emits (3,1); no further
winner is reported, yet the third pull anchors on the stale result
(winner 1, loser 4) and emits (2,1) — although the most recently emitted
pair is (3,1), whose left item 3 still has pending pairs, so anchoring on
(3,1)'s (left, right) as the claim states would emit a pair containing 3,
and (2,1) contains no 3. -/
theorem stale_result_anchor :
    (runEv s0C4 [SeqEvent.pull, SeqEvent.rep 1, SeqEvent.pull]).1 = [⟨4, 1⟩, ⟨3, 1⟩] ∧
    (runEv s0C4 [SeqEvent.pull, SeqEvent.rep 1, SeqEvent.pull]).2.previousComparison =
      some ⟨3, 1⟩ ∧
    (runEv s0C4 [SeqEvent.pull, SeqEvent.rep 1, SeqEvent.pull]).2.previousComparisonResult =
      some ⟨⟨4, 1⟩, 1, 4⟩ ∧
    lookupB (runEv s0C4 [SeqEvent.pull, SeqEvent.rep 1, SeqEvent.pull]).2.comparisonsByItem 3 =
      some [⟨4, 3⟩, ⟨3, 2⟩] ∧
    (runEv s0C4 [SeqEvent.pull, SeqEvent.rep 1, SeqEvent.pull, SeqEvent.pull]).1 =
      [⟨4, 1⟩, ⟨3, 1⟩, ⟨2, 1⟩] ∧
    ((2 : Nat) ≠ 3 ∧ (1 : Nat) ≠ 3) :=
  ⟨rfl, rfl, rfl, rfl, rfl, ⟨by decide, by decide⟩⟩

/-! ## Exhaustive pair generation (claim C3) -/

theorem ceqb_eq_false_iff {c d : Comparison} :
    ceqb c d = false ↔
      ¬((c.left = d.left ∧ c.right = d.right) ∨ (c.left = d.right ∧ c.right = d.left)) := by
  rw [Bool.eq_false_iff, Ne, ceqb_iff]

theorem addPairs_eq (x : Nat) :
    ∀ (others : List Nat) (acc : List Comparison),
      x ∉ others → others.Nodup →
      (∀ d ∈ acc, ∀ o ∈ others, ceqb d (Comparison.new x o) = false) →
      addPairs x others acc = acc ++ pairsOf x others := by
  intro others
  induction others with
  | nil =>
    intro acc _ _ _
    simp [addPairs, pairsOf]
  | cons o os ih =>
    intro acc hx hnd hacc
    have hins : acc.any (fun d => ceqb d (Comparison.new x o)) = false := by
      rw [List.any_eq_false]
      intro d hd
      simp [hacc d hd o (List.mem_cons_self o os)]
    have step : addPairs x (o :: os) acc = addPairs x os (acc ++ [Comparison.new x o]) := by
      have hi : insertC acc (Comparison.new x o) = acc ++ [Comparison.new x o] := by
        unfold insertC
        rw [hins]
        simp
      simp only [addPairs, List.foldl_cons, hi]
    have hxos : x ∉ os := fun hh => hx (List.mem_cons_of_mem _ hh)
    have hxo : x ≠ o := fun hh => hx (hh ▸ List.mem_cons_self o os)
    have hoos : o ∉ os := (List.nodup_cons.mp hnd).1
    rw [step, ih (acc ++ [Comparison.new x o]) hxos (List.nodup_cons.mp hnd).2 ?hcond]
    · simp [pairsOf]
    case hcond =>
      intro d hd o2 ho2
      rcases List.mem_append.mp hd with hda | hdb
      · exact hacc d hda o2 (List.mem_cons_of_mem _ ho2)
      · have hde : d = Comparison.new x o := by simpa using hdb
        subst hde
        have h1 : o ≠ o2 := fun hh => hoos (hh ▸ ho2)
        have h2 : x ≠ o2 := fun hh => hxos (hh ▸ ho2)
        rw [ceqb_eq_false_iff]
        simp only [Comparison.new]
        omega

theorem cnGo_eq :
    ∀ (l : List Nat) (acc : List Comparison), l.Nodup →
      (∀ d ∈ acc, d.left ∉ l) →
      cnGo l acc = acc ++ allPairsAux l := by
  intro l
  induction l with
  | nil =>
    intro acc _ _
    simp [cnGo, allPairsAux]
  | cons x rest ih =>
    intro acc hnd hacc
    have hx : x ∉ rest := (List.nodup_cons.mp hnd).1
    have hrnd : rest.Nodup := (List.nodup_cons.mp hnd).2
    have hap : addPairs x rest.reverse acc = acc ++ pairsOf x rest.reverse := by
      apply addPairs_eq
      · simpa using hx
      · simpa using hrnd
      · intro d hd o ho
        have hor : o ∈ rest := by simpa using ho
        have hdl := hacc d hd
        have h1 : d.left ≠ x := fun hh => hdl (hh ▸ List.mem_cons_self x rest)
        have h2 : d.left ≠ o := fun hh => hdl (List.mem_cons_of_mem _ (hh ▸ hor))
        rw [ceqb_eq_false_iff]
        simp only [Comparison.new]
        omega
    have hinv : ∀ d ∈ acc ++ pairsOf x rest.reverse, d.left ∉ rest := by
      intro d hd
      rcases List.mem_append.mp hd with hda | hdb
      · exact fun hmem => hacc d hda (List.mem_cons_of_mem _ hmem)
      · simp only [pairsOf, List.mem_map] at hdb
        obtain ⟨o, _, rfl⟩ := hdb
        simpa [Comparison.new] using hx
    calc cnGo (x :: rest) acc = cnGo rest (addPairs x rest.reverse acc) := rfl
      _ = cnGo rest (acc ++ pairsOf x rest.reverse) := by rw [hap]
      _ = (acc ++ pairsOf x rest.reverse) ++ allPairsAux rest := ih _ hrnd hinv
      _ = acc ++ allPairsAux (x :: rest) := by simp [allPairsAux]

theorem comparisonsNew_eq {items : List Nat} (h : items.Nodup) :
    comparisonsNew items = allPairsAux items.reverse := by
  unfold comparisonsNew
  rw [cnGo_eq items.reverse [] (by simpa using h) (by simp)]
  simp

theorem allPairsAux_length : ∀ l : List Nat, (allPairsAux l).length = l.length.choose 2 := by
  intro l
  induction l with
  | nil => simp [allPairsAux]
  | cons x rest ih =>
    simp only [allPairsAux, List.length_append, pairsOf, List.length_map,
      List.length_reverse, ih, List.length_cons, Nat.choose_succ_succ,
      Nat.choose_one_right]

theorem mem_allPairsAux :
    ∀ (l : List Nat) (d : Comparison), d ∈ allPairsAux l → d.left ∈ l ∧ d.right ∈ l := by
  intro l
  induction l with
  | nil =>
    intro d hd
    simp [allPairsAux] at hd
  | cons x rest ih =>
    intro d hd
    simp only [allPairsAux] at hd
    rcases List.mem_append.mp hd with hda | hdb
    · simp only [pairsOf, List.mem_map, List.mem_reverse] at hda
      obtain ⟨o, ho, rfl⟩ := hda
      exact ⟨List.mem_cons_self x rest, List.mem_cons_of_mem _ ho⟩
    · obtain ⟨h1, h2⟩ := ih d hdb
      exact ⟨List.mem_cons_of_mem _ h1, List.mem_cons_of_mem _ h2⟩

theorem ceqb_new_iff {a b c d : Nat} :
    ceqb (Comparison.new a b) (Comparison.new c d) = true ↔
      ((a = c ∧ b = d) ∨ (a = d ∧ b = c)) := by
  simp [ceqb, Comparison.new]

theorem countP_eq_one_unique (p : Nat → Bool) :
    ∀ (l : List Nat), l.Nodup → ∀ b, b ∈ l → (∀ o, p o = true ↔ o = b) →
      l.countP p = 1 := by
  intro l
  induction l with
  | nil =>
    intro _ b hb _
    simp at hb
  | cons y t ih =>
    intro hnd b hb hp
    have hyt : y ∉ t := (List.nodup_cons.mp hnd).1
    have htnd : t.Nodup := (List.nodup_cons.mp hnd).2
    rw [List.countP_cons]
    by_cases hyb : y = b
    · subst hyb
      have hz : t.countP p = 0 := by
        rw [List.countP_eq_zero]
        intro o ho hpo
        exact hyt ((hp o).mp hpo ▸ ho)
      simp [hz, (hp y).mpr rfl]
    · have hbt : b ∈ t := by
        rcases List.mem_cons.mp hb with h | h
        · exact absurd h.symm hyb
        · exact h
      have hpy : p y = false := by
        rw [Bool.eq_false_iff]
        intro hh
        exact hyb ((hp y).mp hh)
      simp [ih htnd b hbt hp, hpy]

theorem allPairsAux_count :
    ∀ (l : List Nat), l.Nodup → ∀ a b : Nat, a ∈ l → b ∈ l → a ≠ b →
      (allPairsAux l).countP (fun d => ceqb (Comparison.new a b) d) = 1 := by
  intro l
  induction l with
  | nil =>
    intro _ a b ha _ _
    simp at ha
  | cons x rest ih =>
    intro hnd a b ha hb hab
    have hx : x ∉ rest := (List.nodup_cons.mp hnd).1
    have hrnd : rest.Nodup := (List.nodup_cons.mp hnd).2
    simp only [allPairsAux, List.countP_append]
    by_cases hax : a = x
    · subst hax
      have hbr : b ∈ rest := by
        rcases List.mem_cons.mp hb with h | h
        · exact absurd h.symm hab
        · exact h
      have hc1 : (pairsOf a rest.reverse).countP (fun d => ceqb (Comparison.new a b) d) = 1 := by
        simp only [pairsOf, List.countP_map]
        apply countP_eq_one_unique _ rest.reverse (by simpa using hrnd) b (by simpa using hbr)
        intro o
        simp only [Function.comp_apply]
        rw [ceqb_new_iff]
        constructor
        · rintro (⟨-, h2⟩ | ⟨-, h2⟩)
          · exact h2.symm
          · exact absurd h2.symm hab
        · rintro rfl
          exact Or.inl ⟨rfl, rfl⟩
      have hc2 :
          (allPairsAux rest).countP (fun d => ceqb (Comparison.new a b) d) = 0 := by
        rw [List.countP_eq_zero]
        intro d hd hceq
        obtain ⟨hl, hr⟩ := mem_allPairsAux rest d hd
        rw [ceqb_iff] at hceq
        simp only [Comparison.new] at hceq
        rcases hceq with ⟨h1, _⟩ | ⟨h1, _⟩
        · exact hx (h1 ▸ hl)
        · exact hx (h1 ▸ hr)
      rw [hc1, hc2]
    · by_cases hbx : b = x
      · subst hbx
        have har : a ∈ rest := by
          rcases List.mem_cons.mp ha with h | h
          · exact absurd h hax
          · exact h
        have hc1 :
            (pairsOf b rest.reverse).countP (fun d => ceqb (Comparison.new a b) d) = 1 := by
          simp only [pairsOf, List.countP_map]
          apply countP_eq_one_unique _ rest.reverse (by simpa using hrnd) a (by simpa using har)
          intro o
          simp only [Function.comp_apply]
          rw [ceqb_new_iff]
          constructor
          · rintro (⟨h1, -⟩ | ⟨h1, -⟩)
            · exact absurd h1 hax
            · exact h1.symm
          · rintro rfl
            exact Or.inr ⟨rfl, rfl⟩
        have hc2 :
            (allPairsAux rest).countP (fun d => ceqb (Comparison.new a b) d) = 0 := by
          rw [List.countP_eq_zero]
          intro d hd hceq
          obtain ⟨hl, hr⟩ := mem_allPairsAux rest d hd
          rw [ceqb_iff] at hceq
          simp only [Comparison.new] at hceq
          rcases hceq with ⟨_, h2⟩ | ⟨_, h2⟩
          · exact hx (h2 ▸ hr)
          · exact hx (h2 ▸ hl)
        rw [hc1, hc2]
      · have har : a ∈ rest := by
          rcases List.mem_cons.mp ha with h | h
          · exact absurd h hax
          · exact h
        have hbr : b ∈ rest := by
          rcases List.mem_cons.mp hb with h | h
          · exact absurd h hbx
          · exact h
        have hc1 :
            (pairsOf x rest.reverse).countP (fun d => ceqb (Comparison.new a b) d) = 0 := by
          simp only [pairsOf, List.countP_map]
          rw [List.countP_eq_zero]
          intro o ho hceq
          simp only [Function.comp, ceqb_iff, Comparison.new] at hceq
          rcases hceq with ⟨h1, _⟩ | ⟨_, h2⟩
          · exact hax h1
          · exact hbx h2
        rw [hc1, ih hrnd a b har hbr hab]

/-- C3: for a collection of distinct items, `Comparisons::new` returns
exactly N·(N-1)/2 comparisons, with every unordered combination of two
distinct input items appearing exactly once (counted under the
order-insensitive comparison equality); for fewer than two items it returns
the empty set. -/
theorem comparisonsNew_exhaustive (items : List Nat) (hnd : items.Nodup) :
    (comparisonsNew items).length = items.length * (items.length - 1) / 2 ∧
    (∀ a ∈ items, ∀ b ∈ items, a ≠ b →
      (comparisonsNew items).countP (fun d => ceqb (Comparison.new a b) d) = 1) ∧
    (items.length < 2 → comparisonsNew items = []) := by
  rw [comparisonsNew_eq hnd]
  refine ⟨?_, ?_, ?_⟩
  · rw [allPairsAux_length, List.length_reverse, Nat.choose_two_right]
  · intro a ha b hb hab
    exact allPairsAux_count items.reverse (by simpa using hnd) a b
      (by simpa using ha) (by simpa using hb) hab
  · intro hlen
    match items, hlen with
    | [], _ => rfl
    | [x], _ => rfl

theorem comparisonsNew_exhaustive_witness :
    (comparisonsNew [1, 2, 3]).length = [1, 2, 3].length * ([1, 2, 3].length - 1) / 2 ∧
    (comparisonsNew [1, 2, 3]).countP (fun d => ceqb (Comparison.new 1 3) d) = 1 :=
  ⟨(comparisonsNew_exhaustive [1, 2, 3] (by decide)).1,
    (comparisonsNew_exhaustive [1, 2, 3] (by decide)).2.1 1 (by decide) 3 (by decide)
      (by decide)⟩

/-! ## Bucket-map lemmas for the retaining iterator -/

theorem head?_mem {α : Type} {l : List α} {a : α} (h : l.head? = some a) : a ∈ l := by
  cases l with
  | nil => simp at h
  | cons x t =>
    simp at h
    rw [h]
    exact List.mem_cons_self _ _

theorem lookupB_mem :
    ∀ (bs : List (Nat × List Comparison)) (i : Nat) (b : List Comparison),
      lookupB bs i = some b → (i, b) ∈ bs := by
  intro bs
  induction bs with
  | nil =>
    intro i b h
    simp [lookupB] at h
  | cons e rest ih =>
    intro i b h
    obtain ⟨k, v⟩ := e
    by_cases hk : k = i
    · subst hk
      simp [lookupB] at h
      rw [← h]
      exact List.mem_cons_self _ _
    · simp only [lookupB, if_neg hk] at h
      exact List.mem_cons_of_mem _ (ih i b h)

theorem lookupB_of_keyMem :
    ∀ (bs : List (Nat × List Comparison)) (i : Nat), i ∈ keysOf bs →
      ∃ b, lookupB bs i = some b := by
  intro bs
  induction bs with
  | nil =>
    intro i h
    simp [keysOf] at h
  | cons e rest ih =>
    intro i h
    obtain ⟨k, v⟩ := e
    by_cases hk : k = i
    · exact ⟨v, by simp [lookupB, hk]⟩
    · simp only [keysOf, List.map_cons, List.mem_cons] at h
      rcases h with h | h
      · exact absurd h.symm hk
      · obtain ⟨b, hb⟩ := ih i h
        exact ⟨b, by simp [lookupB, hk, hb]⟩

theorem updateB_isSome :
    ∀ (bs : List (Nat × List Comparison)) (i : Nat) (f : List Comparison → List Comparison)
      (b : List Comparison), lookupB bs i = some b → ∃ r, updateB bs i f = some r := by
  intro bs
  induction bs with
  | nil =>
    intro i f b h
    simp [lookupB] at h
  | cons e rest ih =>
    intro i f b h
    obtain ⟨k, v⟩ := e
    by_cases hk : k = i
    · exact ⟨(k, f v) :: rest, by simp [updateB, hk]⟩
    · simp only [lookupB, if_neg hk] at h
      obtain ⟨r, hr⟩ := ih i f b h
      exact ⟨(k, v) :: r, by simp [updateB, hk, hr]⟩

theorem updateB_keysOf :
    ∀ (bs : List (Nat × List Comparison)) (i : Nat) (f : List Comparison → List Comparison)
      (r : List (Nat × List Comparison)), updateB bs i f = some r → keysOf r = keysOf bs := by
  intro bs
  induction bs with
  | nil =>
    intro i f r h
    simp [updateB] at h
  | cons e rest ih =>
    intro i f r h
    obtain ⟨k, v⟩ := e
    by_cases hk : k = i
    · simp only [updateB, if_pos hk] at h
      obtain rfl := Option.some.inj h
      simp [keysOf]
    · simp only [updateB, if_neg hk] at h
      rcases hu : updateB rest i f with _ | r2
      · rw [hu] at h
        exact Option.noConfusion h
      · rw [hu] at h
        simp only [Option.map_some'] at h
        obtain rfl := Option.some.inj h
        simp only [keysOf, List.map_cons]
        rw [show List.map Prod.fst r2 = keysOf r2 from rfl, ih i f r2 hu]
        rfl

theorem updateB_mem_src :
    ∀ (bs : List (Nat × List Comparison)) (i : Nat) (f : List Comparison → List Comparison)
      (r : List (Nat × List Comparison)), updateB bs i f = some r →
      ∀ j b2, (j, b2) ∈ r → ∃ b, (j, b) ∈ bs ∧ (b2 = b ∨ b2 = f b) := by
  intro bs
  induction bs with
  | nil =>
    intro i f r h
    simp [updateB] at h
  | cons e rest ih =>
    intro i f r h j b2 hj
    obtain ⟨k, v⟩ := e
    by_cases hk : k = i
    · simp only [updateB, if_pos hk] at h
      obtain rfl := Option.some.inj h
      rcases List.mem_cons.mp hj with he | ht
      · obtain ⟨h1, h2⟩ := Prod.mk.inj he
        exact ⟨v, by rw [h1]; exact List.mem_cons_self _ _, Or.inr h2⟩
      · exact ⟨b2, List.mem_cons_of_mem _ ht, Or.inl rfl⟩
    · simp only [updateB, if_neg hk] at h
      rcases hu : updateB rest i f with _ | r2
      · rw [hu] at h
        exact Option.noConfusion h
      · rw [hu] at h
        simp only [Option.map_some'] at h
        obtain rfl := Option.some.inj h
        rcases List.mem_cons.mp hj with he | ht
        · obtain ⟨h1, h2⟩ := Prod.mk.inj he
          exact ⟨v, by rw [h1]; exact List.mem_cons_self _ _, Or.inl h2⟩
        · obtain ⟨b, hb, hor⟩ := ih i f r2 hu j b2 ht
          exact ⟨b, List.mem_cons_of_mem _ hb, hor⟩

theorem updateB_mem_unique :
    ∀ (bs : List (Nat × List Comparison)) (i : Nat) (f : List Comparison → List Comparison)
      (r : List (Nat × List Comparison)), (keysOf bs).Nodup → updateB bs i f = some r →
      ∀ b2, (i, b2) ∈ r → ∃ b, (i, b) ∈ bs ∧ b2 = f b := by
  intro bs
  induction bs with
  | nil =>
    intro i f r _ h
    simp [updateB] at h
  | cons e rest ih =>
    intro i f r hnd h b2 hj
    obtain ⟨k, v⟩ := e
    have hnd2 : k ∉ keysOf rest ∧ (keysOf rest).Nodup := by
      rw [show keysOf ((k, v) :: rest) = k :: keysOf rest from rfl] at hnd
      exact List.nodup_cons.mp hnd
    obtain ⟨hknotin, hrestnd⟩ := hnd2
    by_cases hk : k = i
    · subst hk
      simp only [updateB, if_pos rfl] at h
      obtain rfl := Option.some.inj h
      rcases List.mem_cons.mp hj with he | ht
      · obtain ⟨-, h2⟩ := Prod.mk.inj he
        exact ⟨v, List.mem_cons_self _ _, h2⟩
      · exact absurd (by simpa [keysOf] using List.mem_map_of_mem Prod.fst ht)
          hknotin
    · simp only [updateB, if_neg hk] at h
      rcases hu : updateB rest i f with _ | r2
      · rw [hu] at h
        exact Option.noConfusion h
      · rw [hu] at h
        simp only [Option.map_some'] at h
        obtain rfl := Option.some.inj h
        rcases List.mem_cons.mp hj with he | ht
        · obtain ⟨h1, -⟩ := Prod.mk.inj he
          exact absurd h1.symm hk
        · obtain ⟨b, hb, hfb⟩ := ih i f r2 hrestnd hu b2 ht
          exact ⟨b, List.mem_cons_of_mem _ hb, hfb⟩

theorem updateB_mem_ne :
    ∀ (bs : List (Nat × List Comparison)) (i : Nat) (f : List Comparison → List Comparison)
      (r : List (Nat × List Comparison)), updateB bs i f = some r →
      ∀ j b2, j ≠ i → ((j, b2) ∈ r ↔ (j, b2) ∈ bs) := by
  intro bs
  induction bs with
  | nil =>
    intro i f r h
    simp [updateB] at h
  | cons e rest ih =>
    intro i f r h j b2 hji
    obtain ⟨k, v⟩ := e
    by_cases hk : k = i
    · subst hk
      simp only [updateB, if_pos rfl] at h
      obtain rfl := Option.some.inj h
      simp only [List.mem_cons]
      constructor
      · rintro (he | ht)
        · obtain ⟨h1, -⟩ := Prod.mk.inj he
          exact absurd h1 hji
        · exact Or.inr ht
      · rintro (he | ht)
        · obtain ⟨h1, -⟩ := Prod.mk.inj he
          exact absurd h1 hji
        · exact Or.inr ht
    · simp only [updateB, if_neg hk] at h
      rcases hu : updateB rest i f with _ | r2
      · rw [hu] at h
        exact Option.noConfusion h
      · rw [hu] at h
        simp only [Option.map_some'] at h
        obtain rfl := Option.some.inj h
        simp only [List.mem_cons]
        rw [ih i f r2 hu j b2 hji]

/-! ## Removal lemmas -/

theorem removeC_sublist (c : Comparison) (b : List Comparison) :
    List.Sublist (removeC c b) b :=
  List.eraseP_sublist b

theorem removeC_not_mem (c : Comparison) :
    ∀ (b : List Comparison), b.Pairwise (fun a b => ceqb a b = false) →
      ∀ d ∈ removeC c b, ceqb c d = false := by
  intro b
  induction b with
  | nil =>
    intro _ d hd
    simp [removeC] at hd
  | cons h0 t ih =>
    intro hpw d hd
    obtain ⟨hH, hT⟩ := List.pairwise_cons.mp hpw
    by_cases hch : ceqb c h0 = true
    · simp only [removeC, List.eraseP_cons, hch, cond_true] at hd
      rw [Bool.eq_false_iff]
      intro hcd
      have hhd : ceqb h0 d = true := ceqb_trans (ceqb_symm hch) hcd
      have := hH d hd
      rw [this] at hhd
      exact Bool.noConfusion hhd
    · have hch2 : ceqb c h0 = false := by
        rw [Bool.eq_false_iff]
        exact hch
      simp only [removeC, List.eraseP_cons, hch2, cond_false] at hd
      rcases List.mem_cons.mp hd with rfl | hd2
      · exact hch2
      · exact ih hT d hd2

theorem removePair_not_mem (s : RIIState) (c : Comparison) (hWF : WF s)
    (bs2 : List (Nat × List Comparison))
    (h : removePair s.comparisonsByItem c = some bs2) :
    ∀ e ∈ bs2, ∀ d ∈ e.2, ceqb c d = false := by
  obtain ⟨hnd, hbuck⟩ := hWF
  unfold removePair at h
  rcases hu1 : updateB s.comparisonsByItem c.left (removeC c) with _ | bs1
  · rw [hu1] at h
    exact Option.noConfusion h
  · rw [hu1] at h
    intro e he d hd
    obtain ⟨j, b2⟩ := e
    by_cases hjr : j = c.right
    · subst hjr
      have hnd1 : (keysOf bs1).Nodup := by
        rw [updateB_keysOf _ _ _ _ hu1]
        exact hnd
      obtain ⟨b1, hb1mem, rfl⟩ := updateB_mem_unique _ _ _ _ hnd1 h _ he
      by_cases hlr : c.left = c.right
      · have hb1mem2 : (c.left, b1) ∈ bs1 := by rw [hlr]; exact hb1mem
        obtain ⟨b0, hb0mem, rfl⟩ := updateB_mem_unique _ _ _ _ hnd hu1 _ hb1mem2
        have hpw := (hbuck _ hb0mem).1
        have hd2 : d ∈ removeC c b0 := (removeC_sublist c (removeC c b0)).subset hd
        exact removeC_not_mem c b0 hpw d hd2
      · have hb1bs : (c.right, b1) ∈ s.comparisonsByItem :=
          (updateB_mem_ne _ _ _ _ hu1 _ _ (fun hh => hlr hh.symm)).mp hb1mem
        have hpw := (hbuck _ hb1bs).1
        exact removeC_not_mem c b1 hpw d hd
    · have hmem1 : (j, b2) ∈ bs1 := (updateB_mem_ne _ _ _ _ h _ _ hjr).mp he
      by_cases hjl : j = c.left
      · subst hjl
        obtain ⟨b0, hb0mem, rfl⟩ := updateB_mem_unique _ _ _ _ hnd hu1 _ hmem1
        have hpw := (hbuck _ hb0mem).1
        exact removeC_not_mem c b0 hpw d hd
      · have hmem0 : (j, b2) ∈ s.comparisonsByItem :=
          (updateB_mem_ne _ _ _ _ hu1 _ _ hjl).mp hmem1
        have hdj := ((hbuck _ hmem0).2 d hd).1
        rw [Bool.eq_false_iff]
        intro hcd
        obtain ⟨hdl, hdr⟩ := ceqb_members hcd
        simp only at hdj hdl hdr
        omega

theorem removePair_keysOf (bs : List (Nat × List Comparison)) (c : Comparison)
    (bs2 : List (Nat × List Comparison)) (h : removePair bs c = some bs2) :
    keysOf bs2 = keysOf bs := by
  unfold removePair at h
  rcases hu1 : updateB bs c.left (removeC c) with _ | bs1
  · rw [hu1] at h
    exact Option.noConfusion h
  · rw [hu1] at h
    rw [updateB_keysOf _ _ _ _ h, updateB_keysOf _ _ _ _ hu1]

theorem removePair_entry_sublist (bs : List (Nat × List Comparison)) (c : Comparison)
    (bs2 : List (Nat × List Comparison)) (h : removePair bs c = some bs2) :
    ∀ j b2, (j, b2) ∈ bs2 → ∃ b, (j, b) ∈ bs ∧ List.Sublist b2 b := by
  unfold removePair at h
  rcases hu1 : updateB bs c.left (removeC c) with _ | bs1
  · rw [hu1] at h
    exact Option.noConfusion h
  · rw [hu1] at h
    intro j b2 he
    obtain ⟨b1, hb1, hor1⟩ := updateB_mem_src _ _ _ _ h j b2 he
    obtain ⟨b0, hb0, hor0⟩ := updateB_mem_src _ _ _ _ hu1 j b1 hb1
    refine ⟨b0, hb0, ?_⟩
    have hs1 : List.Sublist b2 b1 := by
      rcases hor1 with rfl | rfl
      · exact List.Sublist.refl _
      · exact removeC_sublist c b1
    have hs0 : List.Sublist b1 b0 := by
      rcases hor0 with rfl | rfl
      · exact List.Sublist.refl _
      · exact removeC_sublist c b0
    exact hs1.trans hs0

theorem removePair_any_mono (bs : List (Nat × List Comparison)) (c0 : Comparison)
    (bs2 : List (Nat × List Comparison)) (h : removePair bs c0 = some bs2) (c : Comparison)
    (hc : bs2.any (fun e => e.2.any (fun d => ceqb c d)) = true) :
    bs.any (fun e => e.2.any (fun d => ceqb c d)) = true := by
  rw [List.any_eq_true] at hc ⊢
  obtain ⟨e, he, hee⟩ := hc
  obtain ⟨j, b2⟩ := e
  obtain ⟨b0, hb0, hsub⟩ := removePair_entry_sublist bs c0 bs2 h j b2 he
  refine ⟨(j, b0), hb0, ?_⟩
  rw [List.any_eq_true] at hee ⊢
  obtain ⟨d, hd, hcd⟩ := hee
  exact ⟨d, hsub.subset hd, hcd⟩

theorem any2_eq_false {bs : List (Nat × List Comparison)} {c : Comparison}
    (h : ∀ e ∈ bs, ∀ d ∈ e.2, ceqb c d = false) :
    bs.any (fun e => e.2.any (fun d => ceqb c d)) = false := by
  rw [List.any_eq_false]
  intro e he
  rw [Bool.not_eq_true, List.any_eq_false]
  intro d hd
  rw [Bool.not_eq_true]
  exact h e he d hd

theorem memB_of_bucket {s : RIIState} {i : Nat} {b : List Comparison} {c : Comparison}
    (hb : (i, b) ∈ s.comparisonsByItem) (hc : c ∈ b) : memB s c = true := by
  unfold memB
  rw [List.any_eq_true]
  refine ⟨(i, b), hb, ?_⟩
  rw [List.any_eq_true]
  exact ⟨c, hc, ceqb_refl c⟩

theorem memB_ceq {s : RIIState} {c e : Comparison} (hce : ceqb c e = true)
    (he : memB s e = true) : memB s c = true := by
  unfold memB at he ⊢
  rw [List.any_eq_true] at he ⊢
  obtain ⟨x, hx, hxa⟩ := he
  refine ⟨x, hx, ?_⟩
  rw [List.any_eq_true] at hxa ⊢
  obtain ⟨d, hd, hcd⟩ := hxa
  exact ⟨d, hd, ceqb_trans hce hcd⟩

/-! ## Inversion and preservation for `riiNext` -/

theorem riiNext_inv (s : RIIState) (c : Comparison) (t : RIIState)
    (h : riiNext s = .ok (some (c, t))) :
    memB s c = true ∧ t.previousComparison = some c ∧
    t.previousComparisonResult = s.previousComparisonResult ∧
    removePair s.comparisonsByItem c = some t.comparisonsByItem := by
  unfold riiNext at h
  rcases ha : anchorOf s with u | (_ | ⟨w, l⟩)
  · rw [ha] at h
    exact Except.noConfusion h
  · rw [ha] at h
    exact Option.noConfusion (Except.ok.inj h)
  · rw [ha] at h
    replace h : emitFrom s w l = Except.ok (some (c, t)) := h
    unfold emitFrom at h
    rcases hbw : lookupB s.comparisonsByItem w with _ | bw
    · rw [hbw] at h
      exact Except.noConfusion h
    · rw [hbw] at h
      rcases hbl : lookupB s.comparisonsByItem l with _ | bl
      · rw [hbl] at h
        exact Except.noConfusion h
      · rw [hbl] at h
        replace h : emitFrom2 s bw bl = Except.ok (some (c, t)) := h
        unfold emitFrom2 at h
        rcases hcand : candidateOf bw bl with _ | c0
        · rw [hcand] at h
          exact Option.noConfusion (Except.ok.inj h)
        · rw [hcand] at h
          replace h : emitChosen s c0 = Except.ok (some (c, t)) := h
          unfold emitChosen at h
          rcases hrp : removePair s.comparisonsByItem c0 with _ | bs2
          · rw [hrp] at h
            exact Except.noConfusion h
          · rw [hrp] at h
            have h2 := Option.some.inj (Except.ok.inj h)
            injection h2 with hc0 ht
            subst hc0
            subst ht
            refine ⟨?_, rfl, rfl, hrp⟩
            unfold candidateOf at hcand
            rcases hhw : bw.head? with _ | c1
            · rw [hhw] at hcand
              replace hcand : bl.head? = some c0 := hcand
              exact memB_of_bucket (lookupB_mem _ _ _ hbl) (head?_mem hcand)
            · rw [hhw] at hcand
              obtain rfl := Option.some.inj hcand
              exact memB_of_bucket (lookupB_mem _ _ _ hbw) (head?_mem hhw)

theorem riiNext_WF (s : RIIState) (hWF : WF s) (c : Comparison) (t : RIIState)
    (h : riiNext s = .ok (some (c, t))) : WF t := by
  obtain ⟨-, -, -, hrp⟩ := riiNext_inv s c t h
  constructor
  · rw [removePair_keysOf _ _ _ hrp]
    exact hWF.1
  · intro e he
    obtain ⟨j, b2⟩ := e
    obtain ⟨b0, hb0, hsub⟩ := removePair_entry_sublist _ _ _ hrp j b2 he
    obtain ⟨hpw0, hmem0⟩ := hWF.2 (j, b0) hb0
    refine ⟨hpw0.sublist hsub, ?_⟩
    intro d hd
    have hd0 : d ∈ b0 := hsub.subset hd
    obtain ⟨hside, hkl, hkr⟩ := hmem0 d hd0
    rw [removePair_keysOf _ _ _ hrp]
    exact ⟨hside, hkl, hkr⟩

theorem riiNext_not_memB {s : RIIState} {c : Comparison} {t : RIIState} (hWF : WF s)
    (h : riiNext s = .ok (some (c, t))) : memB t c = false := by
  obtain ⟨-, -, -, hrp⟩ := riiNext_inv s c t h
  unfold memB
  exact any2_eq_false (removePair_not_mem s c hWF _ hrp)

theorem riiNext_memB_mono (s : RIIState) (c : Comparison) (t : RIIState)
    (h : riiNext s = .ok (some (c, t))) (d : Comparison) (hd : memB t d = true) :
    memB s d = true := by
  obtain ⟨-, -, -, hrp⟩ := riiNext_inv s c t h
  unfold memB at hd ⊢
  exact removePair_any_mono _ _ _ hrp d hd

theorem riiWinner_buckets (s : RIIState) (w : Nat) :
    (riiWinner s w).comparisonsByItem = s.comparisonsByItem := by
  unfold riiWinner
  cases hp : s.previousComparison <;> rfl

theorem riiWinner_WF (s : RIIState) (w : Nat) : WF (riiWinner s w) ↔ WF s := by
  unfold WF
  rw [riiWinner_buckets]

theorem riiWinner_memB (s : RIIState) (w : Nat) (c : Comparison) :
    memB (riiWinner s w) c = memB s c := by
  unfold memB
  rw [riiWinner_buckets]

/-! ## No comparison is ever emitted twice (claim C6) -/

theorem runEv_avoid :
    ∀ (evs : List SeqEvent) (s : RIIState) (c : Comparison), WF s → memB s c = false →
      ∀ d ∈ (runEv s evs).1, ceqb c d = false := by
  intro evs
  induction evs with
  | nil =>
    intro s c _ _ d hd
    simp [runEv] at hd
  | cons ev rest ih =>
    intro s c hWF hmem d hd
    cases ev with
    | pull =>
      rcases hn : riiNext s with u | o
      · simp only [runEv, hn] at hd
        simp at hd
      · rcases o with _ | ⟨e, t⟩
        · simp only [runEv, hn] at hd
          exact ih s c hWF hmem d hd
        · simp only [runEv, hn] at hd
          have hWt : WF t := riiNext_WF s hWF e t hn
          have hmemt : memB t c = false := by
            rw [Bool.eq_false_iff]
            intro hmt
            have h2 := riiNext_memB_mono s e t hn c hmt
            rw [hmem] at h2
            exact Bool.noConfusion h2
          rcases List.mem_cons.mp hd with rfl | hd2
          · rw [Bool.eq_false_iff]
            intro hce
            have hmse : memB s d = true := (riiNext_inv s d t hn).1
            have h2 : memB s c = true := memB_ceq hce hmse
            rw [hmem] at h2
            exact Bool.noConfusion h2
          · exact ih t c hWt hmemt d hd2
    | rep w =>
      simp only [runEv] at hd
      exact ih (riiWinner s w) c ((riiWinner_WF s w).mpr hWF)
        (by rw [riiWinner_memB]; exact hmem) d hd

theorem runEv_pairwise :
    ∀ (evs : List SeqEvent) (s : RIIState), WF s →
      (runEv s evs).1.Pairwise (fun a b => ceqb a b = false) := by
  intro evs
  induction evs with
  | nil =>
    intro s _
    simp [runEv]
  | cons ev rest ih =>
    intro s hWF
    cases ev with
    | pull =>
      rcases hn : riiNext s with u | o
      · simp [runEv, hn]
      · rcases o with _ | ⟨e, t⟩
        · simp only [runEv, hn]
          exact ih s hWF
        · simp only [runEv, hn]
          refine List.pairwise_cons.mpr ⟨?_, ih t (riiNext_WF s hWF e t hn)⟩
          intro d hd
          exact runEv_avoid rest t e (riiNext_WF s hWF e t hn)
            (riiNext_not_memB hWF hn) d hd
    | rep w =>
      simp only [runEv]
      exact ih (riiWinner s w) ((riiWinner_WF s w).mpr hWF)

/-- C6: from any structurally well-formed iterator state, (a) an emitted
comparison is removed from the pending sets of both of its member items at
the moment it is returned — afterwards no bucket holds a comparison equal to
it — and (b) along any interleaving of `next()` and winner reports, the
emitted comparisons are pairwise distinct under the comparison equality. -/
theorem no_comparison_repeated (s : RIIState) (hWF : WF s) :
    (∀ c t, riiNext s = .ok (some (c, t)) → memB t c = false) ∧
    (∀ evs : List SeqEvent, (runEv s evs).1.Pairwise (fun a b => ceqb a b = false)) :=
  ⟨fun _ _ h => riiNext_not_memB hWF h, fun evs => runEv_pairwise evs s hWF⟩

theorem no_comparison_repeated_witness :
    WF (riiNew (comparisonsNew [1, 2, 3])) ∧
    (runEv (riiNew (comparisonsNew [1, 2, 3]))
        [SeqEvent.pull, SeqEvent.rep 3, SeqEvent.pull, SeqEvent.pull]).1.Pairwise
      (fun a b => ceqb a b = false) :=
  ⟨by decide, (no_comparison_repeated (riiNew (comparisonsNew [1, 2, 3])) (by decide)).2 _⟩

/-! ## The next pull prefers the reported winner (claim C2) -/

/-- C2: whenever a winner has been reported for the most recently emitted
pair (the previous-result slot holds `r`), the reported loser is a key, and
the winner still has at least one not-yet-emitted pair containing it (its
pending set `bw` is non-empty), the very next `next()` call succeeds and
returns a pair that contains that winner. -/
theorem retain_iterator_prefers_winner (s : RIIState) (r : CompResult)
    (hWF : WF s) (hres : s.previousComparisonResult = some r)
    (bw : List Comparison) (hbw : lookupB s.comparisonsByItem r.winner = some bw)
    (hbwne : bw ≠ [])
    (bl : List Comparison) (hbl : lookupB s.comparisonsByItem r.loser = some bl) :
    ∃ c t, riiNext s = .ok (some (c, t)) ∧ (c.left = r.winner ∨ c.right = r.winner) := by
  obtain ⟨c, bwrest, rfl⟩ : ∃ c rest, bw = c :: rest := by
    cases bw with
    | nil => exact absurd rfl hbwne
    | cons c rest => exact ⟨c, rest, rfl⟩
  have hmem := lookupB_mem _ _ _ hbw
  obtain ⟨hside, hkl, hkr⟩ := (hWF.2 _ hmem).2 c (List.mem_cons_self _ _)
  obtain ⟨b1, hlb1⟩ := lookupB_of_keyMem _ _ hkl
  obtain ⟨bs1, hu1⟩ := updateB_isSome _ _ (removeC c) b1 hlb1
  have hk1 : c.right ∈ keysOf bs1 := by
    rw [updateB_keysOf _ _ _ _ hu1]
    exact hkr
  obtain ⟨b2, hlb2⟩ := lookupB_of_keyMem _ _ hk1
  obtain ⟨bs2, hu2⟩ := updateB_isSome _ _ (removeC c) b2 hlb2
  have hrp : removePair s.comparisonsByItem c = some bs2 := by
    unfold removePair
    rw [hu1]
    exact hu2
  have ha : anchorOf s = .ok (some (r.winner, r.loser)) := by
    unfold anchorOf
    rw [hres]
  have hnext : riiNext s = emitFrom s r.winner r.loser := by
    unfold riiNext
    rw [ha]
  refine ⟨c, { s with comparisonsByItem := bs2, previousComparison := some c }, ?_, hside⟩
  rw [hnext]
  unfold emitFrom
  rw [hbw, hbl]
  show emitFrom2 s (c :: bwrest) bl = _
  unfold emitFrom2 candidateOf
  show emitChosen s c = _
  unfold emitChosen
  rw [hrp]

theorem retain_iterator_prefers_winner_witness :
    ∃ c t, riiNext sW2 = .ok (some (c, t)) ∧ (c.left = 1 ∨ c.right = 1) :=
  retain_iterator_prefers_winner sW2 ⟨⟨2, 1⟩, 1, 2⟩ (by decide) rfl [⟨3, 1⟩] rfl
    (by decide) [] rfl

/-! ## The two winner-reporting APIs are equivalent (claim C10) -/

/-- C10: immediately after a pair `c` is emitted (state `t`), reporting any
member `w` of `c` through the iterator's direct `winner` method produces
exactly the same state as consuming the returned result-tracker's `winner`:
both write the same result into the shared previous-result slot. -/
theorem winner_apis_equivalent (s : RIIState) (c : Comparison) (t : RIIState)
    (h : riiNext s = .ok (some (c, t))) (w : Nat) (hw : w = c.left ∨ w = c.right) :
    riiWinner t w = trackerWinner c t w := by
  have hp : t.previousComparison = some c := (riiNext_inv s c t h).2.1
  unfold riiWinner trackerWinner
  rw [hp]

theorem winner_apis_equivalent_witness :
    riiWinner s8 2 = trackerWinner ⟨2, 1⟩ s8 2 :=
  winner_apis_equivalent (riiNew (comparisonsNew [1, 2])) ⟨2, 1⟩ s8 rfl 2 (Or.inl rfl)
